import Mathlib

/-!
# Verification of the regime-change-detection core

Shallow embedding of `src/regime_change_utils.py` (functions `log_likelihood`
and `detect_regime_change`) together with theorems settling the frozen claims.

Modelling conventions:
* Python floats are modelled by real numbers (`ℝ`); the float literal `1e-20`
  is idealised as the exact rational `10 ^ (-20)`.
* For the numerical claims about NaN / infinity behaviour of
  `log_likelihood` we additionally use a small value type `FVal` that tracks
  the IEEE special values `inf`, `-inf` and `nan` produced by `np.mean`,
  `np.log`, `+` and `*` on the paths the function can actually take.
* `pd.Series(values, index)` is modelled as the pair `(index, values)`;
  pandas raises a `ValueError` when the two lengths differ, modelled as
  `Except.error ()`.
* `pd.to_datetime` applied to a supplied label is modelled as the identity on
  the (opaque) label type.
* The scan loop of `detect_regime_change` is embedded generically over a
  `LinearOrderedField` carrier for the smoothed values, so that the loop
  logic is executable (e.g. over `ℚ`); the program instantiates the carrier
  with `ℝ` and the raw-value function with `rawMdl`.
-/

namespace RegimeChange

/-! ## A small IEEE-style value domain for the numerical claims -/

/-- Model of a Python float value: a finite real, `inf`, `-inf`, or `nan`. -/
inductive FVal : Type where
  | fin : ℝ → FVal
  | pinf : FVal
  | ninf : FVal
  | nan : FVal

/-- IEEE addition on `FVal`: any `nan` operand gives `nan`, `inf + -inf = nan`. -/
def fvAdd : FVal → FVal → FVal
  | FVal.nan, _ => FVal.nan
  | _, FVal.nan => FVal.nan
  | FVal.fin x, FVal.fin y => FVal.fin (x + y)
  | FVal.pinf, FVal.ninf => FVal.nan
  | FVal.ninf, FVal.pinf => FVal.nan
  | FVal.pinf, _ => FVal.pinf
  | _, FVal.pinf => FVal.pinf
  | FVal.ninf, _ => FVal.ninf
  | _, FVal.ninf => FVal.ninf

/-- IEEE negation on `FVal`. -/
def fvNeg : FVal → FVal
  | FVal.fin x => FVal.fin (-x)
  | FVal.pinf => FVal.ninf
  | FVal.ninf => FVal.pinf
  | FVal.nan => FVal.nan

/-- IEEE subtraction on `FVal`. -/
def fvSub (a b : FVal) : FVal := fvAdd a (fvNeg b)

/-- IEEE multiplication on `FVal`: `nan` absorbs, `0 * ±inf = nan`. -/
noncomputable def fvMul : FVal → FVal → FVal
  | FVal.nan, _ => FVal.nan
  | _, FVal.nan => FVal.nan
  | FVal.fin x, FVal.fin y => FVal.fin (x * y)
  | FVal.fin x, FVal.pinf =>
      if x = 0 then FVal.nan else if 0 < x then FVal.pinf else FVal.ninf
  | FVal.fin x, FVal.ninf =>
      if x = 0 then FVal.nan else if 0 < x then FVal.ninf else FVal.pinf
  | FVal.pinf, FVal.fin y =>
      if y = 0 then FVal.nan else if 0 < y then FVal.pinf else FVal.ninf
  | FVal.ninf, FVal.fin y =>
      if y = 0 then FVal.nan else if 0 < y then FVal.ninf else FVal.pinf
  | FVal.pinf, FVal.pinf => FVal.pinf
  | FVal.pinf, FVal.ninf => FVal.ninf
  | FVal.ninf, FVal.pinf => FVal.ninf
  | FVal.ninf, FVal.ninf => FVal.pinf

/-- `np.log` on `FVal`: finite positive arguments give a finite log, `0` gives
`-inf`, negative arguments give `nan`; `log inf = inf`, `log (-inf) = nan`,
`log nan = nan`. -/
noncomputable def npLog : FVal → FVal
  | FVal.fin x => if 0 < x then FVal.fin (Real.log x) else
      if x = 0 then FVal.ninf else FVal.nan
  | FVal.pinf => FVal.pinf
  | FVal.ninf => FVal.nan
  | FVal.nan => FVal.nan

/-- `np.mean` of a list of (integer) observations: `nan` on the empty list
(numpy warns and returns `nan`), otherwise the finite arithmetic mean. -/
noncomputable def npMean (ts : List ℕ) : FVal :=
  if ts.length = 0 then FVal.nan
  else FVal.fin ((ts.sum : ℝ) / (ts.length : ℝ))

/-- Float-level model of `log_likelihood` (src/regime_change_utils.py, lines
6-22): `p = np.mean(ts)`, `heads = sum(ts)`, `tails = len(ts) - heads`, and
the result is `heads * np.log(p + 1e-20) + tails * np.log(1 - p + 1e-20)`.
The float literal `1e-20` is idealised as the exact value `10 ^ (-20)`. -/
noncomputable def log_likelihood_fv (ts : List ℕ) : FVal :=
  fvAdd
    (fvMul (FVal.fin (ts.sum : ℝ)) (npLog (fvAdd (npMean ts) (FVal.fin 1e-20))))
    (fvMul (FVal.fin ((ts.length : ℝ) - (ts.sum : ℝ)))
      (npLog (fvAdd (fvSub (FVal.fin 1) (npMean ts)) (FVal.fin 1e-20))))

/-! ## Real-valued embedding of the likelihood and the raw MDL value -/

/-- Real-valued embedding of `log_likelihood` (lines 6-22), valid on the
non-empty inputs the scanner feeds it (the bridge to the float model is
`log_likelihood_fv_eq_fin`): with `p = sum / length`, the value is
`heads * log (p + 1e-20) + tails * log (1 - p + 1e-20)`. -/
noncomputable def log_likelihood (ts : List ℕ) : ℝ :=
  (ts.sum : ℝ) * Real.log ((ts.sum : ℝ) / (ts.length : ℝ) + 1e-20) +
    ((ts.length : ℝ) - (ts.sum : ℝ)) *
      Real.log (1 - (ts.sum : ℝ) / (ts.length : ℝ) + 1e-20)

/-- Raw (unsmoothed) description length appended at split `n`
(lines 48-49 and 51/53): `-loglik(ts[:n]) - loglik(ts[n:])` plus the penalty
`0.5 * (log n + log (len ts - n))`. -/
noncomputable def rawMdl (ts : List ℕ) (n : ℕ) : ℝ :=
  -log_likelihood (ts.take n) - log_likelihood (ts.drop n) +
    0.5 * (Real.log (n : ℝ) + Real.log ((ts.length : ℝ) - (n : ℝ)))

/-! ## The scan loop, generic over the value carrier -/

/-- Smoothed (EMA) value at split `n` (lines 50-53): the seed at `n = 1` is
the raw value, and for `n ≥ 2` it is `previous * (1 - ks) + raw n * ks`.
The value at `0` is junk (the loop starts at split 1) and is never used. -/
def smoothedVal {α : Type} [LinearOrderedField α] (raw : ℕ → α) (ks : α) :
    ℕ → α
  | 0 => raw 0
  | 1 => raw 1
  | n + 2 => smoothedVal raw ks (n + 1) * (1 - ks) + raw (n + 2) * ks

/-- The list `mdl` after the loop has processed splits `1 .. n` (the `append`
in lines 51/53 accumulated in split order). -/
def mdlUpTo {α : Type} [LinearOrderedField α] (raw : ℕ → α) (ks : α)
    (n : ℕ) : List α :=
  (List.range' 1 n).map (smoothedVal raw ks)

/-- Python `l[-(m):]` — the last `m` elements for `m > 0`, and the whole list
when `m = 0` (since `l[-0:] = l[0:]`). -/
def lastWin {α : Type} (l : List α) (m : ℕ) : List α :=
  if m = 0 then l else l.drop (l.length - m)

/-- The minimum of `a :: l` (value of Python `min` on a non-empty list). -/
def listMin {α : Type} [LinearOrder α] : α → List α → α
  | a, [] => a
  | a, b :: l => listMin (min a b) l

/-- First index of the minimum of a list — Python
`l.index(min(l))` (line 56); junk value `0` on the empty list (Python `min`
would raise there, but the scanner only evaluates it on non-empty windows). -/
def idxOfMin {α : Type} [LinearOrder α] : List α → ℕ
  | [] => 0
  | [_] => 0
  | a :: b :: l => if a ≤ listMin b l then 0 else idxOfMin (b :: l) + 1

/-- `np.mean` of a list of values already known to be finite (lines 59). -/
def meanOf {α : Type} [LinearOrderedField α] (l : List α) : α :=
  l.sum / (l.length : α)

/-- The detection window at split `n`: the last `2 * stride` smoothed values
(line 55). -/
def winAt {α : Type} [LinearOrderedField α] (raw : ℕ → α) (ks : α)
    (stride : ℕ) (n : ℕ) : List α :=
  lastWin (mdlUpTo raw ks n) (2 * stride)

/-- The inner detection condition of lines 56-59, exactly as the code writes
it: with `w` the detection window and `i = w.index(min w)`, require
`0 < i`, `i < 2 * stride`, and `mean w[:i] < mean w[i:]`. -/
def detCond {α : Type} [LinearOrderedField α] (raw : ℕ → α) (stride : ℕ)
    (ks : α) (n : ℕ) : Prop :=
  0 < idxOfMin (winAt raw ks stride n) ∧
    idxOfMin (winAt raw ks stride n) < 2 * stride ∧
      meanOf ((winAt raw ks stride n).take (idxOfMin (winAt raw ks stride n))) <
        meanOf ((winAt raw ks stride n).drop (idxOfMin (winAt raw ks stride n)))

instance decDetCond {α : Type} [LinearOrderedField α] (raw : ℕ → α)
    (stride : ℕ) (ks : α) (n : ℕ) : Decidable (detCond raw stride ks n) := by
  unfold detCond
  infer_instance

/-- State of `regime_change_date` after the loop has processed splits
`1 .. n` (lines 57-63): once the state is `some`, it is kept; otherwise, when
`n > 20` and the window condition holds, the key of the current split is
recorded (`key = id` without labels, `key n = labels[n]` with labels, the
`pd.to_datetime` conversion being modelled as the identity). -/
def cpAux {α : Type} [LinearOrderedField α] {κ : Type} (raw : ℕ → α)
    (key : ℕ → κ) (stride : ℕ) (ks : α) : ℕ → Option κ
  | 0 => none
  | n + 1 =>
    match cpAux raw key stride ks n with
    | some c => some c
    | none =>
        if 20 < n + 1 ∧ detCond raw stride ks (n + 1) then some (key (n + 1))
        else none

/-- `detect_regime_change(ts, None, stride, k)` (lines 25-66): the returned
`pd.Series` is modelled as the pair (index `np.arange(1, len ts)`, values
`mdl`), together with the final `regime_change_date`. -/
noncomputable def detect_regime_change (ts : List ℕ) (stride : ℕ) (ks : ℝ) :
    (List ℕ × List ℝ) × Option ℕ :=
  ((List.range' 1 (ts.length - 1), mdlUpTo (rawMdl ts) ks (ts.length - 1)),
    cpAux (rawMdl ts) id stride ks (ts.length - 1))

/-- `detect_regime_change(ts, labels, stride, k)` (lines 25-68): the change
point is translated through `labels[n]` (line 61, with `pd.to_datetime`
modelled as the identity), and the returned series is
`pd.Series(mdl, index=labels[1:-1])` (line 68), which raises a pandas
`ValueError` — modelled as `Except.error ()` — when `labels[1:-1]` and `mdl`
have different lengths. -/
noncomputable def detect_regime_change_labeled {κ : Type} [Inhabited κ]
    (ts : List ℕ) (labels : List κ) (stride : ℕ) (ks : ℝ) :
    Except Unit ((List κ × List ℝ) × Option κ) :=
  if ((labels.drop 1).dropLast).length = (mdlUpTo (rawMdl ts) ks (ts.length - 1)).length then
    Except.ok (((labels.drop 1).dropLast, mdlUpTo (rawMdl ts) ks (ts.length - 1)),
      cpAux (rawMdl ts) (fun n => labels.getD n default) stride ks (ts.length - 1))
  else Except.error ()

/-- The detection condition in the words of the spec (refinement target for
claim C1): the index of the window minimum lies strictly inside the window —
at neither the first nor the last window position — and the mean of the
window values before it is strictly below the mean from it onward. -/
def specDetectCond {α : Type} [LinearOrderedField α] (raw : ℕ → α)
    (stride : ℕ) (ks : α) (n : ℕ) : Prop :=
  0 < idxOfMin (winAt raw ks stride n) ∧
    idxOfMin (winAt raw ks stride n) + 1 < (winAt raw ks stride n).length ∧
      meanOf ((winAt raw ks stride n).take (idxOfMin (winAt raw ks stride n))) <
        meanOf ((winAt raw ks stride n).drop (idxOfMin (winAt raw ks stride n)))

/-! ## Helper lemmas about `listMin` and `idxOfMin` -/

theorem listMin_cons {α : Type} [LinearOrder α] (a b : α) (l : List α) :
    listMin a (b :: l) = min a (listMin b l) := by
  induction l generalizing a b with
  | nil => simp [listMin]
  | cons c t ih =>
    show listMin (min a b) (c :: t) = min a (listMin b (c :: t))
    rw [ih, ih, min_assoc]

theorem listMin_le {α : Type} [LinearOrder α] (a : α) (l : List α) :
    ∀ x ∈ a :: l, listMin a l ≤ x := by
  induction l generalizing a with
  | nil =>
    intro x hx
    simp only [List.mem_singleton] at hx
    simp [listMin, hx]
  | cons b t ih =>
    intro x hx
    rw [listMin_cons]
    rcases List.mem_cons.mp hx with h | h
    · exact le_trans (min_le_left _ _) (le_of_eq h.symm)
    · exact le_trans (min_le_right _ _) (ih b x h)

theorem idxOfMin_lt_length {α : Type} [LinearOrder α] (l : List α)
    (h : l ≠ []) : idxOfMin l < l.length := by
  induction l with
  | nil => exact absurd rfl h
  | cons a t ih =>
    cases t with
    | nil => simp [idxOfMin]
    | cons b t2 =>
      show idxOfMin (a :: b :: t2) < (a :: b :: t2).length
      rw [idxOfMin]
      by_cases hle : a ≤ listMin b t2
      · rw [if_pos hle]; simp
      · rw [if_neg hle]
        have := ih (by simp)
        simpa [Nat.succ_lt_succ_iff] using this

theorem get_idxOfMin {α : Type} [LinearOrder α] (a : α) (l : List α)
    (h : idxOfMin (a :: l) < (a :: l).length) :
    (a :: l).get ⟨idxOfMin (a :: l), h⟩ = listMin a l := by
  induction l generalizing a with
  | nil => simp [idxOfMin, listMin]
  | cons b t ih =>
    by_cases hle : a ≤ listMin b t
    · have hidx : idxOfMin (a :: b :: t) = 0 := by rw [idxOfMin, if_pos hle]
      have hfin : (⟨idxOfMin (a :: b :: t), h⟩ : Fin (a :: b :: t).length)
          = ⟨0, by simp⟩ := Fin.ext hidx
      rw [hfin, listMin_cons]
      simp [min_eq_left hle]
    · have hidx : idxOfMin (a :: b :: t) = idxOfMin (b :: t) + 1 := by
        rw [idxOfMin, if_neg hle]
      have hlt : idxOfMin (b :: t) < (b :: t).length := by
        have h2 := h
        rw [hidx] at h2
        simpa [Nat.succ_lt_succ_iff] using h2
      have hfin : (⟨idxOfMin (a :: b :: t), h⟩ : Fin (a :: b :: t).length)
          = ⟨idxOfMin (b :: t) + 1, by simpa [hidx] using h⟩ := Fin.ext hidx
      rw [hfin, List.get_cons_succ, ih b hlt, listMin_cons]
      have hm : listMin b t ≤ a := le_of_lt (lt_of_not_le hle)
      simp [min_eq_right hm]

/-! ## Helper lemmas about means and windows -/

theorem length_mul_le_sum {α : Type} [LinearOrderedField α] (l : List α)
    (m : α) (h : ∀ x ∈ l, m ≤ x) : (l.length : α) * m ≤ l.sum := by
  induction l with
  | nil => simp
  | cons a t ih =>
    have ha : m ≤ a := h a (List.mem_cons_self a t)
    have ht : (t.length : α) * m ≤ t.sum := ih (fun x hx => h x (List.mem_cons_of_mem a hx))
    have : ((a :: t).length : α) * m = m + (t.length : α) * m := by
      rw [List.length_cons]
      push_cast
      ring
    rw [this, List.sum_cons]
    exact add_le_add ha ht

theorem le_meanOf {α : Type} [LinearOrderedField α] (l : List α)
    (hne : l ≠ []) (m : α) (h : ∀ x ∈ l, m ≤ x) : m ≤ meanOf l := by
  have hpos : (0 : α) < (l.length : α) := by
    have := List.length_pos.mpr hne
    exact_mod_cast this
  rw [meanOf, le_div_iff₀ hpos, mul_comm]
  exact length_mul_le_sum l m h

theorem meanOf_singleton {α : Type} [LinearOrderedField α] (x : α) :
    meanOf [x] = x := by
  simp [meanOf]

theorem length_mdlUpTo {α : Type} [LinearOrderedField α] (raw : ℕ → α)
    (ks : α) (n : ℕ) : (mdlUpTo raw ks n).length = n := by
  simp [mdlUpTo]

theorem winAt_length {α : Type} [LinearOrderedField α] (raw : ℕ → α)
    (ks : α) (stride n : ℕ) (hs : 0 < stride) :
    (winAt raw ks stride n).length = min (2 * stride) n := by
  have h2 : 2 * stride ≠ 0 := by omega
  rw [winAt, lastWin, if_neg h2, List.length_drop, length_mdlUpTo]
  omega

theorem winAt_ne_nil {α : Type} [LinearOrderedField α] (raw : ℕ → α)
    (ks : α) (stride n : ℕ) (hs : 0 < stride) (hn : 1 ≤ n) :
    winAt raw ks stride n ≠ [] := by
  have hlen : (winAt raw ks stride n).length = min (2 * stride) n :=
    winAt_length raw ks stride n hs
  intro hcon
  rw [hcon] at hlen
  simp at hlen
  omega

theorem get_idxOfMin_le {α : Type} [LinearOrder α] (l : List α)
    (hne : l ≠ []) (hlt : idxOfMin l < l.length) :
    ∀ x ∈ l, l.get ⟨idxOfMin l, hlt⟩ ≤ x := by
  cases l with
  | nil => exact absurd rfl hne
  | cons a t =>
    rw [get_idxOfMin a t hlt]
    exact listMin_le a t

/-- The condition actually tested by the code (`min_ > 0 and min_ < 2*stride`
plus the mean comparison) is equivalent, on every split the loop visits, to
the spec's phrasing (minimum strictly inside the window plus the mean
comparison): the upper code bound `min_ < 2*stride` never excludes the last
window position, but whenever the window minimum sits at the last position
the mean comparison fails, because the mean of the values before it cannot
be below the minimum itself. -/
theorem detCond_iff_spec {α : Type} [LinearOrderedField α] (raw : ℕ → α)
    (stride : ℕ) (ks : α) (n : ℕ) (hs : 0 < stride) (hn : 1 ≤ n) :
    detCond raw stride ks n ↔ specDetectCond raw stride ks n := by
  have hne : winAt raw ks stride n ≠ [] := winAt_ne_nil raw ks stride n hs hn
  have hwlen : (winAt raw ks stride n).length = min (2 * stride) n :=
    winAt_length raw ks stride n hs
  unfold detCond specDetectCond
  constructor
  · rintro ⟨h1, _, h3⟩
    refine ⟨h1, ?_, h3⟩
    by_contra hge
    push_neg at hge
    have hlt : idxOfMin (winAt raw ks stride n) < (winAt raw ks stride n).length :=
      idxOfMin_lt_length _ hne
    have hmin_le : ∀ x ∈ winAt raw ks stride n,
        (winAt raw ks stride n).get ⟨idxOfMin (winAt raw ks stride n), hlt⟩ ≤ x :=
      get_idxOfMin_le _ hne hlt
    have hdrop : (winAt raw ks stride n).drop (idxOfMin (winAt raw ks stride n))
        = [(winAt raw ks stride n).get ⟨idxOfMin (winAt raw ks stride n), hlt⟩] := by
      rw [List.drop_eq_getElem_cons hlt,
        List.drop_eq_nil_of_le (by omega : (winAt raw ks stride n).length
          ≤ idxOfMin (winAt raw ks stride n) + 1)]
      simp [List.get_eq_getElem]
    have htake_ne : (winAt raw ks stride n).take (idxOfMin (winAt raw ks stride n)) ≠ [] := by
      intro hcon
      have hlt2 := List.length_take (idxOfMin (winAt raw ks stride n)) (winAt raw ks stride n)
      rw [hcon] at hlt2
      simp at hlt2
      omega
    have hge2 : (winAt raw ks stride n).get ⟨idxOfMin (winAt raw ks stride n), hlt⟩
        ≤ meanOf ((winAt raw ks stride n).take (idxOfMin (winAt raw ks stride n))) :=
      le_meanOf _ htake_ne _
        (fun x hx => hmin_le x (List.take_subset _ _ hx))
    rw [hdrop, meanOf_singleton] at h3
    exact absurd h3 (not_lt.mpr hge2)
  · rintro ⟨h1, h2, h3⟩
    refine ⟨h1, ?_, h3⟩
    omega

/-! ## Lemmas about the scan state `cpAux` -/

theorem cpAux_none_of_le20 {α : Type} [LinearOrderedField α] {κ : Type}
    (raw : ℕ → α) (key : ℕ → κ) (stride : ℕ) (ks : α) :
    ∀ m, m ≤ 20 → cpAux raw key stride ks m = none := by
  intro m
  induction m with
  | zero => intro _; rfl
  | succ p ih =>
    intro hm
    simp only [cpAux]
    rw [ih (by omega)]
    have hno : ¬(20 < p + 1 ∧ detCond raw stride ks (p + 1)) := by
      rintro ⟨hc, _⟩
      omega
    rw [if_neg hno]

theorem cpAux_some_spec {α : Type} [LinearOrderedField α] {κ : Type}
    (raw : ℕ → α) (key : ℕ → κ) (stride : ℕ) (ks : α) :
    ∀ m c, cpAux raw key stride ks m = some c →
      ∃ j, 20 < j ∧ j ≤ m ∧ c = key j := by
  intro m
  induction m with
  | zero =>
    intro c h
    exact absurd h (by simp [cpAux])
  | succ p ih =>
    intro c h
    simp only [cpAux] at h
    cases hp : cpAux raw key stride ks p with
    | some d =>
      simp only [hp] at h
      obtain ⟨j, hj1, hj2, hj3⟩ := ih d hp
      exact ⟨j, hj1, by omega, by rw [← Option.some.inj h]; exact hj3⟩
    | none =>
      simp only [hp] at h
      by_cases hcond : 20 < p + 1 ∧ detCond raw stride ks (p + 1)
      · rw [if_pos hcond] at h
        exact ⟨p + 1, hcond.1, le_refl _, (Option.some.inj h).symm⟩
      · rw [if_neg hcond] at h
        exact absurd h (by simp)

/-! ## Bridge between the float model and the real-valued likelihood -/

/-- On every non-empty binary input, the float-level `log_likelihood`
produces a finite value, equal to the real-valued embedding: the additive
`1e-20` makes both logarithm arguments strictly positive. -/
theorem log_likelihood_fv_eq_fin (ts : List ℕ) (hne : ts ≠ [])
    (hb : ∀ x ∈ ts, x ≤ 1) :
    log_likelihood_fv ts = FVal.fin (log_likelihood ts) := by
  have hlen0 : ts.length ≠ 0 := fun hcon => hne (List.length_eq_zero.mp hcon)
  have hlpos : (0 : ℝ) < (ts.length : ℝ) := by
    exact_mod_cast Nat.pos_of_ne_zero hlen0
  have hsum_le : (ts.sum : ℝ) ≤ (ts.length : ℝ) := by
    have hn1 : ts.sum ≤ ts.length • 1 := List.sum_le_card_nsmul ts 1 hb
    have hn2 : ts.length • 1 = ts.length := by simp
    rw [hn2] at hn1
    exact_mod_cast hn1
  have hp0 : (0 : ℝ) ≤ (ts.sum : ℝ) / (ts.length : ℝ) :=
    div_nonneg (by positivity) (le_of_lt hlpos)
  have hp1 : (ts.sum : ℝ) / (ts.length : ℝ) ≤ 1 := (div_le_one hlpos).mpr hsum_le
  have heps : (0 : ℝ) < (1e-20 : ℝ) := by norm_num
  have hpos1 : (0 : ℝ) < (ts.sum : ℝ) / (ts.length : ℝ) + 1e-20 := by linarith
  have hpos2 : (0 : ℝ) < 1 - (ts.sum : ℝ) / (ts.length : ℝ) + 1e-20 := by linarith
  have hmean : npMean ts = FVal.fin ((ts.sum : ℝ) / (ts.length : ℝ)) := by
    rw [npMean, if_neg hlen0]
  have e1 : fvAdd (FVal.fin ((ts.sum : ℝ) / (ts.length : ℝ))) (FVal.fin 1e-20)
      = FVal.fin ((ts.sum : ℝ) / (ts.length : ℝ) + 1e-20) := rfl
  have e2 : npLog (FVal.fin ((ts.sum : ℝ) / (ts.length : ℝ) + 1e-20))
      = FVal.fin (Real.log ((ts.sum : ℝ) / (ts.length : ℝ) + 1e-20)) := by
    simp only [npLog]
    rw [if_pos hpos1]
  have e3 : fvAdd (fvSub (FVal.fin 1) (FVal.fin ((ts.sum : ℝ) / (ts.length : ℝ))))
        (FVal.fin 1e-20)
      = FVal.fin (1 - (ts.sum : ℝ) / (ts.length : ℝ) + 1e-20) := by
    show FVal.fin (1 + -((ts.sum : ℝ) / (ts.length : ℝ)) + 1e-20)
        = FVal.fin (1 - (ts.sum : ℝ) / (ts.length : ℝ) + 1e-20)
    rw [← sub_eq_add_neg]
  have e4 : npLog (FVal.fin (1 - (ts.sum : ℝ) / (ts.length : ℝ) + 1e-20))
      = FVal.fin (Real.log (1 - (ts.sum : ℝ) / (ts.length : ℝ) + 1e-20)) := by
    simp only [npLog]
    rw [if_pos hpos2]
  rw [log_likelihood_fv, hmean, e1, e2, e3, e4]
  rfl

/-! ## Claim theorems -/

/-- C1: during the scan, for a split `n > 20` at which no change point has
yet been detected, detection is declared exactly when, in the trailing
window of the last `2*stride` smoothed values, the index of the window
minimum lies strictly inside the window (at neither the first nor the last
window position) and the mean of the window values before that index is
strictly below the mean of the values from it onward; when declared, the
recorded change point is the key of split `n` (`n` itself without labels,
`labels[n]` with labels). -/
theorem cpAux_step_of_none {α : Type} [LinearOrderedField α] {κ : Type}
    (raw : ℕ → α) (key : ℕ → κ) (stride : ℕ) (ks : α) (n : ℕ)
    (hs : 0 < stride) (hn : 20 < n)
    (hnone : cpAux raw key stride ks (n - 1) = none) :
    (specDetectCond raw stride ks n → cpAux raw key stride ks n = some (key n))
    ∧ (¬ specDetectCond raw stride ks n → cpAux raw key stride ks n = none) := by
  obtain ⟨m, rfl⟩ : ∃ m, n = m + 1 := ⟨n - 1, by omega⟩
  have hnone2 : cpAux raw key stride ks m = none := by
    have hmm : m + 1 - 1 = m := by omega
    rw [hmm] at hnone
    exact hnone
  constructor
  · intro hspec
    have hdet : detCond raw stride ks (m + 1) :=
      (detCond_iff_spec raw stride ks (m + 1) hs (by omega)).mpr hspec
    simp only [cpAux, hnone2]
    rw [if_pos ⟨hn, hdet⟩]
  · intro hspec
    have hdet : ¬ detCond raw stride ks (m + 1) := fun hd =>
      hspec ((detCond_iff_spec raw stride ks (m + 1) hs (by omega)).mp hd)
    simp only [cpAux, hnone2]
    rw [if_neg (fun hc => hdet hc.2)]

/-- C1: during the scan over a given observation sequence, for a split
`n > 20` at which no change point has yet been detected, detection is
declared exactly when, in the trailing window of the last `2*stride`
smoothed values, the index of the window minimum lies strictly inside the
window (at neither the first nor the last window position) and the mean of
the window values before that index is strictly below the mean of the
values from it onward; when declared, the recorded change point is the key
of split `n` (`n` itself without labels, `labels[n]` with labels). -/
theorem claim_detection_rule (ts : List ℕ) {κ : Type} (key : ℕ → κ)
    (stride : ℕ) (ks : ℝ) (n : ℕ) (hs : 0 < stride) (hn : 20 < n)
    (hnone : cpAux (rawMdl ts) key stride ks (n - 1) = none) :
    (specDetectCond (rawMdl ts) stride ks n →
        cpAux (rawMdl ts) key stride ks n = some (key n))
    ∧ (¬ specDetectCond (rawMdl ts) stride ks n →
        cpAux (rawMdl ts) key stride ks n = none) :=
  cpAux_step_of_none (rawMdl ts) key stride ks n hs hn hnone

theorem claim_detection_rule_witness :
    (specDetectCond (rawMdl [0, 1]) 6 (0.05 : ℝ) 21 →
        cpAux (rawMdl [0, 1]) id 6 (0.05 : ℝ) 21 = some (id 21))
    ∧ (¬ specDetectCond (rawMdl [0, 1]) 6 (0.05 : ℝ) 21 →
        cpAux (rawMdl [0, 1]) id 6 (0.05 : ℝ) 21 = none) :=
  claim_detection_rule [0, 1] id 6 0.05 21 (by decide) (by decide)
    (cpAux_none_of_le20 (rawMdl [0, 1]) id 6 0.05 20 (by decide))

theorem cpAux_locked {α : Type} [LinearOrderedField α]
    {κ : Type} (raw : ℕ → α) (key : ℕ → κ) (stride : ℕ) (ks : α) (m d : ℕ) :
    cpAux raw key stride ks m = none
    ∨ cpAux raw key stride ks (m + d) = cpAux raw key stride ks m := by
  induction d with
  | zero => right; rfl
  | succ p ih =>
    rcases ih with h | h
    · left; exact h
    · cases hm : cpAux raw key stride ks m with
      | none => left; rfl
      | some c =>
        right
        have hmp : cpAux raw key stride ks (m + p) = some c := by rw [h, hm]
        show cpAux raw key stride ks (m + p + 1) = some c
        simp only [cpAux, hmp]

/-- C8: within a single scan over a given observation sequence, once the
change-point state is `some`, every later split leaves it unchanged (the
detection check is skipped while the state is `some`), so at most one
change point is ever reported. -/
theorem claim_change_point_locked (ts : List ℕ) {κ : Type} (key : ℕ → κ)
    (stride : ℕ) (ks : ℝ) (m d : ℕ) :
    cpAux (rawMdl ts) key stride ks m = none
    ∨ cpAux (rawMdl ts) key stride ks (m + d)
        = cpAux (rawMdl ts) key stride ks m :=
  cpAux_locked (rawMdl ts) key stride ks m d

/-- C10: without labels, a non-`None` change point is a split index `n` with
`21 ≤ n ≤ k - 1`: never `0`, never `k`, never at or below the
minimum-history threshold of `20` (so detection implies `k ≥ 22`). -/
theorem claim_change_point_bounds (ts : List ℕ) (stride : ℕ) (ks : ℝ) :
    (detect_regime_change ts stride ks).2 = none
    ∨ ∃ n, 21 ≤ n ∧ n ≤ ts.length - 1
        ∧ (detect_regime_change ts stride ks).2 = some n := by
  cases h : cpAux (rawMdl ts) id stride ks (ts.length - 1) with
  | none =>
    left
    exact h
  | some c =>
    right
    obtain ⟨j, hj1, hj2, hj3⟩ := cpAux_some_spec _ _ _ _ _ _ h
    simp only [id] at hj3
    refine ⟨j, by omega, hj2, ?_⟩
    show cpAux (rawMdl ts) id stride ks (ts.length - 1) = some j
    rw [h, hj3]

/-- C4 (amended): on an empty observation sequence, `log_likelihood` does
not fail with an `InvalidInput` error — it returns the float `NaN`
(`np.mean([])` is `NaN` and propagates); on every non-empty binary sequence
it returns a finite float. -/
theorem claim_log_likelihood_behavior :
    log_likelihood_fv [] = FVal.nan
    ∧ ∀ ts : List ℕ, ts ≠ [] → (∀ x ∈ ts, x ≤ 1) →
        ∃ y, log_likelihood_fv ts = FVal.fin y :=
  ⟨rfl, fun ts h1 h2 => ⟨log_likelihood ts, log_likelihood_fv_eq_fin ts h1 h2⟩⟩

theorem claim_log_likelihood_behavior_witness :
    ∃ y, log_likelihood_fv [0, 1] = FVal.fin y :=
  claim_log_likelihood_behavior.2 [0, 1] (by decide) (by decide)

/-- C4 counterexample: on the empty input the likelihood estimator does not
fail — it evaluates to the float `NaN`. -/
theorem claim_log_likelihood_cex : log_likelihood_fv [] = FVal.nan := rfl

/-- C9: on every non-empty all-0s sequence and every non-empty all-1s
sequence, `log_likelihood` returns a finite value — no error, no infinity,
no NaN — because the additive `1e-20` keeps both logarithm arguments
strictly positive. -/
theorem claim_degenerate_finite (ts : List ℕ) (hne : ts ≠ [])
    (hdeg : (∀ x ∈ ts, x = 0) ∨ (∀ x ∈ ts, x = 1)) :
    ∃ y, log_likelihood_fv ts = FVal.fin y := by
  refine ⟨log_likelihood ts, log_likelihood_fv_eq_fin ts hne ?_⟩
  intro x hx
  rcases hdeg with h | h
  · rw [h x hx]
    omega
  · rw [h x hx]

theorem claim_degenerate_finite_witness :
    ∃ y, log_likelihood_fv [0, 0, 0] = FVal.fin y :=
  claim_degenerate_finite [0, 0, 0] (by decide) (Or.inl (by decide))

/-- C2 (amended): without labels the returned series always has exactly
`k - 1` values, keyed by the split indices `1, ..., k-1` in increasing
order; with labels the call only succeeds — again with exactly `k - 1`
values — when the labels have length `k + 1` (the series is keyed by
`labels[1:-1]`); labels of the spec-mandated length `k` make the series
construction fail. -/
theorem claim_series_length (κ : Type) [Inhabited κ] :
    (∀ (ts : List ℕ) (stride : ℕ) (ks : ℝ),
        (detect_regime_change ts stride ks).1.2.length = ts.length - 1
        ∧ (detect_regime_change ts stride ks).1.1 = List.range' 1 (ts.length - 1))
    ∧ (∀ (ts : List ℕ) (labels : List κ) (stride : ℕ) (ks : ℝ),
        labels.length = ts.length + 1 →
        ∃ r, detect_regime_change_labeled ts labels stride ks = Except.ok r
          ∧ r.1.2.length = ts.length - 1) := by
  constructor
  · intro ts stride ks
    exact ⟨length_mdlUpTo _ _ _, rfl⟩
  · intro ts labels stride ks hlen
    have hc : ((labels.drop 1).dropLast).length
        = (mdlUpTo (rawMdl ts) ks (ts.length - 1)).length := by
      rw [List.length_dropLast, List.length_drop, length_mdlUpTo]
      omega
    refine ⟨(((labels.drop 1).dropLast, mdlUpTo (rawMdl ts) ks (ts.length - 1)),
      cpAux (rawMdl ts) (fun n => labels.getD n default) stride ks (ts.length - 1)),
      ?_, ?_⟩
    · rw [detect_regime_change_labeled, if_pos hc]
    · show (mdlUpTo (rawMdl ts) ks (ts.length - 1)).length = ts.length - 1
      exact length_mdlUpTo _ _ _

theorem claim_series_length_witness :
    ∃ r, detect_regime_change_labeled [0, 1] ([7, 8, 9] : List ℕ) 6 (0.05 : ℝ)
        = Except.ok r ∧ r.1.2.length = 1 :=
  (claim_series_length ℕ).2 [0, 1] [7, 8, 9] 6 0.05 (by decide)

/-- C2 counterexample: with labels of the spec-mandated length `k` (here
`k = 2`), the call does not return a `k - 1`-entry series — the final
`pd.Series(mdl, index=labels[1:-1])` fails on a length mismatch
(`k - 2` index entries against `k - 1` values). -/
theorem claim_series_length_cex :
    detect_regime_change_labeled [0, 1] ([10, 20] : List ℕ) 6 (0.05 : ℝ)
      = Except.error () := rfl

/-- C3 (amended): when the call with labels succeeds — which requires labels
of length `k + 1`, not the spec-mandated `k` — every key of the returned
series and any non-`None` change point is a value drawn from the supplied
labels. -/
theorem claim_label_passthrough {κ : Type} [Inhabited κ]
    (ts : List ℕ) (labels : List κ) (stride : ℕ) (ks : ℝ)
    (r : (List κ × List ℝ) × Option κ)
    (hlen : labels.length = ts.length + 1)
    (hok : detect_regime_change_labeled ts labels stride ks = Except.ok r) :
    (∀ x ∈ r.1.1, x ∈ labels) ∧ (∀ c, r.2 = some c → c ∈ labels) := by
  have hc : ((labels.drop 1).dropLast).length
      = (mdlUpTo (rawMdl ts) ks (ts.length - 1)).length := by
    rw [List.length_dropLast, List.length_drop, length_mdlUpTo]
    omega
  rw [detect_regime_change_labeled, if_pos hc] at hok
  have hr : r = (((labels.drop 1).dropLast, mdlUpTo (rawMdl ts) ks (ts.length - 1)),
      cpAux (rawMdl ts) (fun n => labels.getD n default) stride ks (ts.length - 1)) :=
    (Except.ok.inj hok).symm
  subst hr
  constructor
  · intro x hx
    exact List.drop_subset 1 labels (List.dropLast_subset _ hx)
  · intro c hc2
    obtain ⟨j, hj1, hj2, hj3⟩ := cpAux_some_spec _ _ _ _ _ _ hc2
    have hjlt : j < labels.length := by omega
    rw [hj3, List.getD_eq_get labels default hjlt]
    exact List.get_mem labels j hjlt

theorem claim_label_passthrough_witness :
    (∀ x ∈ ((([4], [smoothedVal (rawMdl [0, 1]) (0.05 : ℝ) 1]),
        (none : Option ℕ)) : (List ℕ × List ℝ) × Option ℕ).1.1,
        x ∈ ([3, 4, 5] : List ℕ))
    ∧ (∀ c, ((([4], [smoothedVal (rawMdl [0, 1]) (0.05 : ℝ) 1]),
        (none : Option ℕ)) : (List ℕ × List ℝ) × Option ℕ).2 = some c →
        c ∈ ([3, 4, 5] : List ℕ)) :=
  claim_label_passthrough [0, 1] [3, 4, 5] 6 0.05
    (([4], [smoothedVal (rawMdl [0, 1]) (0.05 : ℝ) 1]), none) (by decide) rfl

/-- C3 counterexample: a call with labels of length `k` (here `k = 3`, the
length the claim supposes) does not return label keys — it fails on the
series-construction length mismatch. -/
theorem claim_label_passthrough_cex :
    detect_regime_change_labeled [0, 1, 0] ([1, 2, 3] : List ℕ) 6 (0.05 : ℝ)
      = Except.error () := rfl

/-- C5 (amended): the scanner performs no input validation. A call with
`k < 2` does not fail — it returns an empty series and no change point. A
call with labels fails (with the pandas length-mismatch error at series
construction, not an upfront `InvalidInput`) exactly when the labels do not
have length `k + 1`; in particular labels of the spec-mandated length `k`
always fail for `k ≥ 2`, while mismatched labels of length `k + 1`
succeed. -/
theorem claim_no_input_validation (κ : Type) [Inhabited κ] :
    (∀ (ts : List ℕ) (stride : ℕ) (ks : ℝ), ts.length < 2 →
        detect_regime_change ts stride ks = (([], []), none))
    ∧ (∀ (ts : List ℕ) (labels : List κ) (stride : ℕ) (ks : ℝ),
        labels.length = ts.length → 2 ≤ ts.length →
        detect_regime_change_labeled ts labels stride ks = Except.error ()) := by
  constructor
  · intro ts stride ks h
    have h0 : ts.length - 1 = 0 := by omega
    simp only [detect_regime_change, h0]
    rfl
  · intro ts labels stride ks hlen h2
    have hc : ¬(((labels.drop 1).dropLast).length
        = (mdlUpTo (rawMdl ts) ks (ts.length - 1)).length) := by
      rw [List.length_dropLast, List.length_drop, length_mdlUpTo]
      omega
    rw [detect_regime_change_labeled, if_neg hc]

theorem claim_no_input_validation_witness :
    detect_regime_change [0] 2 (1 : ℝ) = (([], []), none)
    ∧ detect_regime_change_labeled [0, 1] ([4, 5] : List ℕ) 3 (1 : ℝ)
        = Except.error () :=
  ⟨(claim_no_input_validation ℕ).1 [0] 2 1 (by decide),
    (claim_no_input_validation ℕ).2 [0, 1] [4, 5] 3 1 (by decide) (by decide)⟩

/-- C5 counterexample: a call with `k = 1 < 2` returns normally instead of
failing, and a call whose labels have length `3 ≠ k = 2` succeeds instead of
failing. -/
theorem claim_no_input_validation_cex :
    detect_regime_change [0] 6 (0.05 : ℝ) = (([], []), none)
    ∧ ∃ r, detect_regime_change_labeled [1, 0] ([7, 8, 9] : List ℕ) 6 (0.05 : ℝ)
        = Except.ok r :=
  ⟨rfl, ⟨(([8], [smoothedVal (rawMdl [1, 0]) (0.05 : ℝ) 1]), none), rfl⟩⟩

/-- C6: for every split `n` in `1 .. k-1`, the series entry at position
`n - 1` is keyed by `n` and holds the smoothed value; the smoothed value at
`n = 1` is the raw description length (EMA seed), for `n ≥ 2` it satisfies
the EMA recurrence, and the raw value equals
`-loglik(ts[:n]) - loglik(ts[n:]) + 0.5*(log n + log (k - n))`. -/
theorem claim_mdl_formula (ts : List ℕ) (stride : ℕ) (ks : ℝ) (n : ℕ)
    (h1 : 1 ≤ n) (h2 : n ≤ ts.length - 1) :
    ((detect_regime_change ts stride ks).1.2).get? (n - 1)
        = some (smoothedVal (rawMdl ts) ks n)
    ∧ ((detect_regime_change ts stride ks).1.1).get? (n - 1) = some n
    ∧ smoothedVal (rawMdl ts) ks 1 = rawMdl ts 1
    ∧ (2 ≤ n → smoothedVal (rawMdl ts) ks n
        = smoothedVal (rawMdl ts) ks (n - 1) * (1 - ks) + rawMdl ts n * ks)
    ∧ rawMdl ts n = -log_likelihood (ts.take n) - log_likelihood (ts.drop n)
        + 0.5 * (Real.log (n : ℝ) + Real.log ((ts.length : ℝ) - (n : ℝ))) := by
  have hlt : n - 1 < ts.length - 1 := by omega
  have hidx : 1 + 1 * (n - 1) = n := by omega
  refine ⟨?_, ?_, rfl, ?_, rfl⟩
  · show ((mdlUpTo (rawMdl ts) ks (ts.length - 1)).get? (n - 1))
        = some (smoothedVal (rawMdl ts) ks n)
    rw [mdlUpTo, List.get?_map, List.get?_range' 1 1 hlt, hidx]
    rfl
  · show (List.range' 1 (ts.length - 1)).get? (n - 1) = some n
    rw [List.get?_range' 1 1 hlt, hidx]
  · intro hge
    obtain ⟨m, rfl⟩ : ∃ m, n = m + 2 := ⟨n - 2, by omega⟩
    rfl

theorem claim_mdl_formula_witness :
    ((detect_regime_change [0, 1, 1] 6 (0.05 : ℝ)).1.2).get? (2 - 1)
        = some (smoothedVal (rawMdl [0, 1, 1]) (0.05 : ℝ) 2)
    ∧ ((detect_regime_change [0, 1, 1] 6 (0.05 : ℝ)).1.1).get? (2 - 1) = some 2
    ∧ smoothedVal (rawMdl [0, 1, 1]) (0.05 : ℝ) 1 = rawMdl [0, 1, 1] 1
    ∧ (2 ≤ 2 → smoothedVal (rawMdl [0, 1, 1]) (0.05 : ℝ) 2
        = smoothedVal (rawMdl [0, 1, 1]) (0.05 : ℝ) (2 - 1) * (1 - (0.05 : ℝ))
            + rawMdl [0, 1, 1] 2 * (0.05 : ℝ))
    ∧ rawMdl [0, 1, 1] 2 = -log_likelihood ([0, 1, 1].take 2)
        - log_likelihood ([0, 1, 1].drop 2)
        + 0.5 * (Real.log ((2 : ℕ) : ℝ)
            + Real.log ((([0, 1, 1] : List ℕ).length : ℝ) - ((2 : ℕ) : ℝ))) :=
  claim_mdl_formula [0, 1, 1] 6 0.05 2 (by decide) (by decide)

/-- C7: any call on a sequence of length `k ≤ 20` reports no change point
(the `n > 20` guard can never pass), and the minimal call on `[0, 1]`
returns a 1-entry smoothed series and no change point. -/
theorem claim_short_series_guard :
    (∀ (ts : List ℕ) (stride : ℕ) (ks : ℝ), ts.length ≤ 20 →
        (detect_regime_change ts stride ks).2 = none)
    ∧ (∀ (κ : Type) [Inhabited κ] (ts : List ℕ) (labels : List κ)
        (stride : ℕ) (ks : ℝ) (r : (List κ × List ℝ) × Option κ),
        ts.length ≤ 20 →
        detect_regime_change_labeled ts labels stride ks = Except.ok r →
        r.2 = none)
    ∧ (detect_regime_change [0, 1] 6 (0.05 : ℝ)).1.2.length = 1
    ∧ (detect_regime_change [0, 1] 6 (0.05 : ℝ)).2 = none := by
  refine ⟨?_, ?_, ?_, ?_⟩
  · intro ts stride ks h
    show cpAux (rawMdl ts) id stride ks (ts.length - 1) = none
    exact cpAux_none_of_le20 _ _ _ _ _ (by omega)
  · intro κ _ ts labels stride ks r h hok
    rw [detect_regime_change_labeled] at hok
    by_cases hc : ((labels.drop 1).dropLast).length
        = (mdlUpTo (rawMdl ts) ks (ts.length - 1)).length
    · rw [if_pos hc] at hok
      have hr : r = (((labels.drop 1).dropLast, mdlUpTo (rawMdl ts) ks (ts.length - 1)),
          cpAux (rawMdl ts) (fun n => labels.getD n default) stride ks (ts.length - 1)) :=
        (Except.ok.inj hok).symm
      subst hr
      show cpAux (rawMdl ts) (fun n => labels.getD n default) stride ks
          (ts.length - 1) = none
      exact cpAux_none_of_le20 _ _ _ _ _ (by omega)
    · rw [if_neg hc] at hok
      exact absurd hok (by simp)
  · show (mdlUpTo (rawMdl [0, 1]) (0.05 : ℝ) 1).length = 1
    exact length_mdlUpTo _ _ _
  · show cpAux (rawMdl [0, 1]) id 6 (0.05 : ℝ) 1 = none
    exact cpAux_none_of_le20 _ _ _ _ _ (by omega)

theorem claim_short_series_guard_witness :
    (detect_regime_change [1, 0] 3 (0.5 : ℝ)).2 = none
    ∧ ((([8], [smoothedVal (rawMdl [0, 1]) (0.05 : ℝ) 1]),
        (none : Option ℕ)) : (List ℕ × List ℝ) × Option ℕ).2 = none :=
  ⟨claim_short_series_guard.1 [1, 0] 3 0.5 (by decide),
    claim_short_series_guard.2.1 ℕ [0, 1] [9, 8, 7] 6 0.05
      (([8], [smoothedVal (rawMdl [0, 1]) (0.05 : ℝ) 1]), none) (by decide) rfl⟩

end RegimeChange
